import Mathlib

/-!
# mpvq: a shallow embedding of `mpvq.c`

The C program keeps two scrollable lists (file explorer, playlist), a player
state and a playlist file format.  The definitions below transcribe the
functions and macros of `mpvq.c`; the theorems state properties of them.

Conventions.
* C `int` values are modelled by `Int`; the values that occur are list
  lengths and terminal coordinates.
* C strings are modelled by `List Char` (the bytes before the terminating NUL).
* `char **elems` is a `List` of C strings; an access `elems[i]` outside the
  list is an invalid memory read and is modelled as a fault.
-/

namespace Mpvq

/-! ## Data model -/

/-- The C enum `player_state`. -/
inductive player_state where
  | state_playing
  | state_paused
  | state_nothing_playing
  deriving DecidableEq, Repr

/-- The C struct `gui_list`.  The fields `x1`, `x2` are only used for drawing. -/
structure gui_list where
  scroll : Int
  cur : Int
  n_elems : Int
  elems : List (List Char)
  y1 : Int
  y2 : Int
  deriving DecidableEq, Repr

/-! ## Scrollable list: `BASIC_MOVEMENT` and `HANDLE_SCROLL` -/

/-- The four keys handled by the macro `BASIC_MOVEMENT`. -/
inductive MoveKey where
  | j
  | k
  | g
  | G
  deriving DecidableEq, Repr

/-- The macro `BASIC_MOVEMENT(T)`, one `case` per key. -/
def BASIC_MOVEMENT (key : MoveKey) (T : gui_list) : gui_list :=
  match key with
  | .j => { T with cur := T.cur + (if T.cur + 1 ≥ T.n_elems then 0 else 1) }
  | .k => { T with cur := T.cur - (if T.cur - 1 < 0 then 0 else 1) }
  | .g => { T with cur := 0 }
  | .G => { T with cur := T.n_elems - 1 }

/-- First loop of `HANDLE_SCROLL`:
`while (y1 + cur - scroll >= y2) scroll++;` returning the final `scroll`. -/
def scroll_up (y1 cur y2 scroll : Int) : Int :=
  if y1 + cur - scroll ≥ y2 then scroll_up y1 cur y2 (scroll + 1) else scroll
termination_by (y1 + cur - scroll - y2 + 1).toNat
decreasing_by omega

/-- Second loop of `HANDLE_SCROLL`:
`while (cur < scroll) scroll--;` returning the final `scroll`. -/
def scroll_down (cur scroll : Int) : Int :=
  if cur < scroll then scroll_down cur (scroll - 1) else scroll
termination_by (scroll - cur).toNat
decreasing_by omega

/-- The macro `HANDLE_SCROLL(T)`: the two loops in sequence. -/
def HANDLE_SCROLL (T : gui_list) : gui_list :=
  let s1 := scroll_up T.y1 T.cur T.y2 T.scroll
  { T with scroll := scroll_down T.cur s1 }

/-- One key press in a pane: the movement, then the redraw of the pane, which
starts with `HANDLE_SCROLL` (`draw_fileexplorer`, `draw_playlist`). -/
def move_step (T : gui_list) (key : MoveKey) : gui_list :=
  HANDLE_SCROLL (BASIC_MOVEMENT key T)

/-- A finite sequence of key presses. -/
def move_run (T : gui_list) (keys : List MoveKey) : gui_list :=
  keys.foldl move_step T

/-- The list invariant: cursor inside the list, cursor row inside the viewport. -/
def list_inv (T : gui_list) : Prop :=
  0 ≤ T.cur ∧ T.cur ≤ T.n_elems - 1 ∧ T.scroll ≤ T.cur ∧ T.y1 + T.cur - T.scroll < T.y2


/-! ## Player state, mpv commands, playlist pane -/

/-- A command sent with `mpv_command`: `loadfile <path>` or `set pause yes/no`. -/
inductive mpv_cmd where
  | loadfile (path : List Char)
  | set_pause (yes : Bool)
  deriving DecidableEq, Repr

/-- The globals `playlist`, `current_playing`, `pstate`, and the commands sent
to mpv so far (oldest first). -/
structure App where
  playlist : gui_list
  current_playing : Int
  pstate : player_state
  commands : List mpv_cmd
  deriving DecidableEq, Repr

/-- How a handler ends: normally in a state, or at an invalid memory read in
the state reached so far. -/
inductive Outcome where
  | ok (s : App)
  | fault (s : App)
  deriving DecidableEq, Repr

/-- The read `l.elems[i]`; `none` when `i` is outside the array. -/
def elem_at (l : gui_list) (i : Int) : Option (List Char) :=
  if 0 ≤ i then l.elems[i.toNat]? else none

/-- The function `play_song(path)`: `loadfile` for a path, `set pause no` for
`NULL`. -/
def play_song (path : Option (List Char)) (s : App) : App :=
  match path with
  | some p => { s with commands := s.commands ++ [mpv_cmd.loadfile p] }
  | none => { s with commands := s.commands ++ [mpv_cmd.set_pause false] }

/-- The function `pause_song()`. -/
def pause_song (s : App) : App :=
  { s with commands := s.commands ++ [mpv_cmd.set_pause true] }

/-- The field `reason` of `mpv_event_end_file`. -/
inductive end_file_reason where
  | eof
  | stop
  | quit
  | error
  | redirect
  deriving DecidableEq, Repr

/-- What `mpv_wait_event` returns, as far as `event_waiter` looks at it. -/
inductive mpv_event where
  | end_file (reason : end_file_reason)
  | other
  deriving DecidableEq, Repr

/-- One iteration of the loop of `event_waiter` on the event `ev`.
`Outcome.fault s` is an out-of-bounds read of `playlist.elems` in state `s`. -/
def event_waiter (ev : mpv_event) (s : App) : Outcome :=
  match ev with
  | .end_file reason =>
    if reason ≠ .eof then .ok s
    else if s.current_playing + 1 < s.playlist.n_elems then
      let s1 := { s with current_playing := s.current_playing + 1 }
      match elem_at s1.playlist s1.current_playing with
      | some p => .ok (play_song (some p) s1)
      | none => .fault s1
    else .ok { s with pstate := .state_nothing_playing, current_playing := 0 }
  | .other => .ok s

/-- The function `handle_playpause(change)`; its inner calls
`handle_playpause(0)` do nothing.  `Outcome.fault s` is an out-of-bounds read
of `playlist.elems` in state `s`. -/
def handle_playpause (change : Bool) (s : App) : Outcome :=
  if change then
    match s.pstate with
    | .state_playing => .ok { s with pstate := .state_paused }
    | .state_nothing_playing =>
      let s1 := { s with pstate := .state_playing }
      match elem_at s1.playlist s1.current_playing with
      | some p => .ok (play_song (some p) s1)
      | none => .fault s1
    | .state_paused => .ok (play_song none { s with pstate := .state_playing })
  else .ok s

/-- The `case L' '` of `ui`: `handle_playpause(1)`, then `play_song(NULL)` or
`pause_song()`. -/
def ui_space (s : App) : Outcome :=
  match handle_playpause true s with
  | .ok s1 =>
    if s1.pstate = .state_playing then .ok (play_song none s1) else .ok (pause_song s1)
  | .fault s1 => .fault s1

/-- The function `swap(&a[i], &a[j])`; `none` when an index is outside `a`. -/
def swap {α : Type} (a : List α) (i j : Nat) : Option (List α) :=
  match a[i]?, a[j]? with
  | some x, some y => some ((a.set i y).set j x)
  | _, _ => none

/-- The loop of `shuf` from the counter value `i` down to `1`; `call` counts
the calls of `RAND_FUNCTION`, whose results are `rand 0, rand 1, ...`.
`none` is a division by zero in `% len` or an access outside `a`. -/
def shuf_loop {α : Type} (rand : Nat → Nat) (len : Nat) : Nat → Nat → List α → Option (List α)
  | 0, _, a => some a
  | i + 1, call, a =>
    if len = 0 then none
    else
      match swap a ((rand call % 2 ^ 32) % len) (i + 1) with
      | some a1 => shuf_loop rand len i (call + 1) a1
      | none => none

/-- The function `shuf(a, len)`: `for (i = len - 1; i > 0; --i)
swap(&a[(unsigned)RAND_FUNCTION() % len], &a[i]);`. -/
def shuf {α : Type} (rand : Nat → Nat) (a : List α) (len : Int) : Option (List α) :=
  shuf_loop rand len.toNat (len - 1).toNat 0 a

/-- The function `draw_playlist`: `HANDLE_SCROLL(playlist)`, then `draw_list`.
Of `draw_list` nothing is kept here: it draws, and for a visible item whose
base name is longer than the pane is wide it also overwrites the end of the
stored string with `...` (`strcpy` into the result of `basename`).  The
definition is that of a playlist whose base names fit the pane. -/
def draw_playlist (s : App) : App :=
  { s with playlist := HANDLE_SCROLL s.playlist }

/-- The `switch` of `handle_playlist(c)`, before `draw_playlist`. -/
def handle_playlist_switch (rand : Nat → Nat) (c : Char) (s : App) : Outcome :=
  if c = 'j' then .ok { s with playlist := BASIC_MOVEMENT .j s.playlist }
  else if c = 'k' then .ok { s with playlist := BASIC_MOVEMENT .k s.playlist }
  else if c = 'g' then .ok { s with playlist := BASIC_MOVEMENT .g s.playlist }
  else if c = 'G' then .ok { s with playlist := BASIC_MOVEMENT .G s.playlist }
  else if c = 'R' then
    match shuf rand s.playlist.elems s.playlist.n_elems with
    | some a => .ok { s with playlist := { s.playlist with elems := a } }
    | none => .fault s
  else if c = 'l' then
    let s1 := { s with pstate := .state_playing, current_playing := s.playlist.cur }
    match elem_at s1.playlist s1.current_playing with
    | some p => .ok (play_song (some p) s1)
    | none => .fault s1
  else if c = 'K' then
    if s.playlist.cur > 0 then
      match swap s.playlist.elems s.playlist.cur.toNat (s.playlist.cur - 1).toNat with
      | some a =>
        .ok { s with
              playlist := { s.playlist with elems := a, cur := s.playlist.cur - 1 }
              current_playing := s.current_playing - 1 }
      | none => .fault s
    else .ok s
  else if c = 'J' then
    if s.playlist.cur + 1 < s.playlist.n_elems then
      match swap s.playlist.elems s.playlist.cur.toNat (s.playlist.cur + 1).toNat with
      | some a =>
        .ok { s with
              playlist := { s.playlist with elems := a, cur := s.playlist.cur + 1 }
              current_playing := s.current_playing + 1 }
      | none => .fault s
    else .ok s
  else .ok s

/-- The function `handle_playlist(c)`. -/
def handle_playlist (rand : Nat → Nat) (c : Char) (s : App) : Outcome :=
  match handle_playlist_switch rand c s with
  | .ok s1 => .ok (draw_playlist s1)
  | .fault s1 => .fault s1

/-! ## libc: streams, `fgets`, `atoi`, `%d`, `strndup`, `strrchr` -/

/-- A stream opened for reading: the bytes not yet read and the end-of-file
indicator, which a read sets when it runs into the end of the data. -/
structure FILE where
  data : List Char
  eof : Bool
  deriving DecidableEq, Repr

/-- The C string held by an array of bytes: the bytes before the first NUL. -/
def cstr (bytes : List Char) : List Char :=
  bytes.takeWhile (fun c => c ≠ '\x00')

/-- The read loop of `fgets`: take at most `k` bytes, stopping after a newline.
Result: the bytes taken, the rest of the stream, and whether the end of the
data was reached while asking for a further byte. -/
def fgets_chars : Nat → List Char → List Char × List Char × Bool
  | 0, rest => ([], rest, false)
  | _ + 1, [] => ([], [], true)
  | k + 1, c :: cs =>
    if c = '\n' then ([c], cs, false)
    else
      let r := fgets_chars k cs
      (c :: r.1, r.2.1, r.2.2)

/-- The function `fgets(buf, size, fp)`: the new content of `buf` as a C string
and the stream afterwards.  When no byte could be read because the stream was
at its end, `buf` keeps its old content (`fgets` returns `NULL`). -/
def fgets (size : Nat) (buf : List Char) (fp : FILE) : List Char × FILE :=
  match size with
  | 0 => (buf, fp)
  | k + 1 =>
    let r := fgets_chars k fp.data
    if r.1 = [] ∧ r.2.2 = true then (buf, { data := r.2.1, eof := true })
    else (cstr r.1, { data := r.2.1, eof := fp.eof || r.2.2 })

/-- The function `feof(fp)`. -/
def feof (fp : FILE) : Bool := fp.eof

/-- The test `strncmp(s1, s2, n) == 0` on C strings. -/
def strncmp_eq (s1 s2 : List Char) (n : Nat) : Bool :=
  s1.take n == s2.take n

/-- The function `isspace` in the C locale. -/
def isspace (c : Char) : Bool :=
  c = ' ' || c = '\t' || c = '\n' || c = '\x0b' || c = '\x0c' || c = '\r'

/-- The function `isdigit`. -/
def isdigit (c : Char) : Bool :=
  48 ≤ c.toNat && c.toNat ≤ 57

/-- The digit loop of `atoi`. -/
def atoi_digits : Nat → List Char → Nat
  | acc, [] => acc
  | acc, c :: cs => if isdigit c then atoi_digits (acc * 10 + (c.toNat - 48)) cs else acc

/-- The function `atoi`: skip white space, an optional sign, then the digits.
The value is exact; C leaves the result undefined when it does not fit `int`. -/
def atoi (s : List Char) : Int :=
  match s.dropWhile isspace with
  | '-' :: cs => - (atoi_digits 0 cs : Int)
  | '+' :: cs => (atoi_digits 0 cs : Int)
  | cs => (atoi_digits 0 cs : Int)

/-- The character of a decimal digit. -/
def digit_char (d : Nat) : Char := Char.ofNat (48 + d)

/-- The decimal digits of a natural number, most significant first. -/
def fmt_u (n : Nat) : List Char :=
  if n < 10 then [digit_char n] else fmt_u (n / 10) ++ [digit_char (n % 10)]
termination_by n
decreasing_by omega

/-- The conversion `%d` of `fprintf`. -/
def fmt_d (i : Int) : List Char :=
  if i < 0 then '-' :: fmt_u i.natAbs else fmt_u i.toNat

/-- The call `strndup(buf, strlen(buf) - 1)`: for an empty `buf` the count
wraps around to `SIZE_MAX` and the whole (empty) string is copied; otherwise
the last byte is dropped. -/
def strndup_minus_one (buf : List Char) : List Char :=
  if buf.length = 0 then buf else buf.take (buf.length - 1)

/-- The function `strrchr(s, c)`: the part of `s` from the last `c` on. -/
def strrchr (s : List Char) (c : Char) : Option (List Char) :=
  match s with
  | [] => none
  | x :: xs =>
    match strrchr xs c with
    | some r => some r
    | none => if x = c then some (x :: xs) else none

/-! ## Playlist file: `read_playlist`, `save_playlist` -/

/-- The macro `MPVQ_PLIST_HEADER`. -/
def MPVQ_PLIST_HEADER : List Char := "_MPVQ_PLIST_".toList

/-- The calls of `modal_alert` made by the playlist file functions:
"file error: ...", "this file is not a mpvq playlist",
"this playlist file is corrupted". -/
inductive Alert where
  | file_error
  | not_a_playlist
  | corrupted
  deriving DecidableEq, Repr

/-- What `tb_width()` and `tb_height()` return while a function runs.  Before
`tb_init()` has been called termbox has no terminal and both calls return a
negative error code. -/
structure Term where
  width : Int
  height : Int
  deriving DecidableEq, Repr

/-- The macro `MIN_TERMINAL_WIDTH`. -/
def MIN_TERMINAL_WIDTH : Int := 35

/-- The macro `MIN_TERMINAL_HEIGHT`. -/
def MIN_TERMINAL_HEIGHT : Int := 15

/-- How a function that opens a dialog ends: it returns, or the process ends in
`errx(1, "terminal too small")` of `exit_if_term_to_small`, or in the `abort`
of a failed `assert`. -/
inductive Ending where
  | returned
  | exit_too_small
  | assert_failed
  deriving DecidableEq, Repr

/-- The function `modal_alert(title, text)` up to its loop:
`exit_if_term_to_small()`, `DEFAULT_MODAL_OPTIONS()`, `assert(lines <
max_text_h)`; then the dialog is drawn and the function returns when the
operator acknowledges it (the terminal is not resized meanwhile).  The source
computes `height` and `lines` in `float`; for terminal sizes and text lengths
below 10^6 the values are `3 * tb_height() / 5` and the length divided by
`max_text_w`, rounded up. -/
def modal_alert (t : Term) (text : List Char) : Ending :=
  if t.width < MIN_TERMINAL_WIDTH ∨ t.height < MIN_TERMINAL_HEIGHT then .exit_too_small
  else
    let width := t.width / 2
    let height := 3 * t.height / 5
    let max_text_w := width - 2
    let max_text_h := height - 3
    let lines := ((text.length : Int) + max_text_w - 1) / max_text_w
    if lines < max_text_h then .returned else .assert_failed

/-- The text of each alert; `strerror` is what `strerror(errno)` gives after
a failed `fopen` (`snprintf` into `errs[1024]`). -/
def Alert.text (a : Alert) (strerror : List Char) : List Char :=
  match a with
  | .file_error => ("file error: ".toList ++ strerror).take 1023
  | .not_a_playlist => "this file is not a mpvq playlist".toList
  | .corrupted => "this playlist file is corrupted".toList

/-- The function `init_playlist`. -/
def init_playlist (pl : gui_list) : gui_list :=
  { pl with cur := 0, elems := [], n_elems := 0, scroll := 0 }

/-- The `for` loop of `read_playlist` with `n` iterations left: the items
stored, in order, the alerts shown, and how the loop ends.  When `modal_alert`
ends the process the loop stops there. -/
def read_elems (PATH_MAX : Nat) (t : Term) :
    Nat → List Char → FILE → List (List Char) × List Alert × Ending
  | 0, _, _ => ([], [], .returned)
  | n + 1, buf, fp =>
    let e := if feof fp then modal_alert t (Alert.corrupted.text []) else Ending.returned
    if e = Ending.returned then
      let alert := if feof fp then [Alert.corrupted] else []
      let r := fgets PATH_MAX buf fp
      let rest := read_elems PATH_MAX t n r.1 r.2
      (strndup_minus_one r.1 :: rest.1, alert ++ rest.2.1, rest.2.2)
    else ([], [], e)

/-- What `read_playlist` leaves: the global `playlist`, the alerts shown to the
operator, and how the call ended. -/
structure Loaded where
  playlist : gui_list
  alerts : List Alert
  ending : Ending
  deriving DecidableEq, Repr

/-- A call `modal_alert("error", text of a)` followed by `return`, with the
playlist `pl`: the alert counts as shown when `modal_alert` returns. -/
def alert_and_return (t : Term) (strerror : List Char) (a : Alert) (pl : gui_list) : Loaded :=
  if modal_alert t (a.text strerror) = Ending.returned then ⟨pl, [a], .returned⟩
  else ⟨pl, [], modal_alert t (a.text strerror)⟩

/-- The function `read_playlist(givenpath)`.
* `PATH_MAX`: the constant of `limits.h`, size of the line buffer `buf`;
* `t`: what termbox reports as terminal size during the call;
* `stack_buf`: what the uninitialised `buf` holds on entry;
* `strerror`: the text of `strerror(errno)` when `fopen` fails;
* `givenpath`: whether the argument is non-`NULL` (the call from `main`, made
  before `ui()` calls `tb_init()`);
* `yn`: the answer `modal_yn` returned (asked only when `givenpath` is `NULL`;
  `modal_yn` returns only on a terminal that passed its own
  `exit_if_term_to_small` and `assert`);
* `file`: the content of the file named by the path, `none` when `fopen` fails;
* `pl`: the global `playlist`. -/
def read_playlist (PATH_MAX : Nat) (t : Term) (stack_buf strerror : List Char)
    (givenpath yn : Bool) (file : Option (List Char)) (pl : gui_list) : Loaded :=
  if givenpath = false ∧ yn = false then ⟨pl, [], .returned⟩
  else
    let pl1 := if givenpath = true ∨ pl.n_elems > 0 then init_playlist pl else pl
    match file with
    | none => alert_and_return t strerror Alert.file_error pl1
    | some content =>
      let h := fgets PATH_MAX stack_buf { data := content, eof := false }
      if strncmp_eq h.1 MPVQ_PLIST_HEADER MPVQ_PLIST_HEADER.length = false then
        alert_and_return t strerror Alert.not_a_playlist pl1
      else
        let c := fgets PATH_MAX h.1 h.2
        let n := atoi c.1
        let r := read_elems PATH_MAX t n.toNat c.1 c.2
        ⟨{ pl1 with n_elems := n, elems := r.1 }, r.2.1, r.2.2⟩

/-- The `fprintf` calls of `save_playlist`: header line, count line, one line
per item. -/
def playlist_text (pl : gui_list) : List Char :=
  MPVQ_PLIST_HEADER ++ ['\n'] ++ fmt_d pl.n_elems ++ ['\n'] ++
    ((pl.elems.take pl.n_elems.toNat).map (fun p => p ++ ['\n'])).flatten

/-- What `save_playlist` leaves: the text written to the file, if any, the
alerts shown, and how the call ended. -/
structure Saved where
  text : Option (List Char)
  alerts : List Alert
  ending : Ending
  deriving DecidableEq, Repr

/-- The function `save_playlist()`: `out` is whether `modal_input` returned a
path (it returns only on a terminal that passed its own
`exit_if_term_to_small` and `assert`), `fopen_ok` whether `fopen(out, "w")`
succeeded, `t` and `strerror` as for `read_playlist`. -/
def save_playlist (t : Term) (strerror : List Char) (out fopen_ok : Bool) (pl : gui_list) :
    Saved :=
  if out = false then ⟨none, [], .returned⟩
  else if fopen_ok = false then
    if modal_alert t (Alert.file_error.text strerror) = Ending.returned then
      ⟨none, [Alert.file_error], .returned⟩
    else ⟨none, [], modal_alert t (Alert.file_error.text strerror)⟩
  else ⟨some (playlist_text pl), [], .returned⟩

/-! ## File explorer: `is_music_ext`, `playlist_add_song` -/

/-- The function `getext(path)`: what follows the last `.`, `none` without one. -/
def getext (path : List Char) : Option (List Char) :=
  match strrchr path '.' with
  | some p => some p.tail
  | none => none

/-- The table `music_file_extensions`. -/
def music_file_extensions : List (List Char) :=
  ["mp3".toList, "wav".toList, "ogg".toList, "flac".toList]

/-- The function `is_music_ext(path)`. -/
def is_music_ext (path : List Char) : Bool :=
  match getext path with
  | some ext => music_file_extensions.any (fun e => e == ext)
  | none => false

/-- The entries of a directory in the order `readdir` returns them (`.` and
`..` left out: `is_music_ext` rejects both names).  An entry is a name with
either something that is not a directory, or a directory and its entries. -/
inductive Entries where
  | nil : Entries
  | file : List Char → Entries → Entries
  | dir : List Char → Entries → Entries → Entries
  deriving DecidableEq, Repr

/-- A file system object: a directory with its entries, or anything else. -/
inductive Node where
  | file : Node
  | dir : Entries → Node
  deriving DecidableEq, Repr

/-- The resolved path of the entry `d_name` of the directory with resolved
path `path`, in a tree without symbolic links. -/
def child_path (path d_name : List Char) : List Char :=
  if path = ['/'] then '/' :: d_name else path ++ '/' :: d_name

/-- The part of `playlist_add_song` after the directory branch: return when
`path` is already in the playlist, else store it at index `n_elems`. -/
def playlist_add_file (path : List Char) (pl : gui_list) : gui_list :=
  if (pl.elems.take pl.n_elems.toNat).any (fun e => path == e) then pl
  else { pl with elems := pl.elems.take pl.n_elems.toNat ++ [path], n_elems := pl.n_elems + 1 }

/-- The directory branch of `playlist_add_song`: the `readdir` loop over the
entries `es` of the directory with resolved path `path`.  An entry whose name
passes `is_music_ext` is handed to `playlist_add_song`, which takes this
branch again when the entry is a directory. -/
def playlist_add_dir (path : List Char) (es : Entries) (pl : gui_list) : gui_list :=
  match es with
  | .nil => pl
  | .file d_name rest =>
    if is_music_ext d_name then
      playlist_add_dir path rest (playlist_add_file (child_path path d_name) pl)
    else playlist_add_dir path rest pl
  | .dir d_name sub rest =>
    if is_music_ext d_name then
      playlist_add_dir path rest (playlist_add_dir (child_path path d_name) sub pl)
    else playlist_add_dir path rest pl

/-- The function `playlist_add_song(apath)`: `path` is the result of
`realpath` for `cwd` followed by `apath`, `node` the file system object there
(`is_directory(apath)` is `node` being a directory), `pl` the global
`playlist`. -/
def playlist_add_song (path : List Char) (node : Node) (pl : gui_list) : gui_list :=
  match node with
  | .dir es => playlist_add_dir path es pl
  | .file => playlist_add_file path pl

/-! ## File explorer: the comparator `alphabetical` -/

/-- The function `tolower` in the C locale, on the value of the byte.  The
source passes a `char`; where `char` is signed, a byte from 0x80 on reaches
`tolower` as a negative number, which this definition does not follow: it is
that of names made of bytes below 0x80. -/
def tolower (c : Char) : Nat :=
  if 65 ≤ c.toNat ∧ c.toNat ≤ 90 then c.toNat + 32 else c.toNat

/-- The test `s[0] == '.' && s[1] == '.'`. -/
def dotdot_at (s : List Char) : Bool :=
  match s with
  | '.' :: '.' :: _ => true
  | _ => false

/-- The function `alphabetical(&s1, &s2)`, the comparator handed to
`mergesort` in `handle_fileexplorer`.  The recursive call runs the whole body
again on the two tails, the two `..` tests included. -/
def alphabetical (s1 s2 : List Char) : Int :=
  if dotdot_at s1 then -1
  else if dotdot_at s2 then 1
  else
    match s1, s2 with
    | c1 :: t1, c2 :: t2 =>
      if tolower c1 > tolower c2 then 1
      else if tolower c1 < tolower c2 then -1
      else alphabetical t1 t2
    | [], [] => 0
    | [], _ :: _ => -1
    | _ :: _, [] => 1

/-- The collation in the words of the specification, second part:
case-insensitive lexicographic comparison, lowercased characters position by
position, a proper prefix first. -/
def caseless_lex (a b : List Char) : Int :=
  match a, b with
  | x :: xs, y :: ys =>
    if tolower x > tolower y then 1
    else if tolower x < tolower y then -1
    else caseless_lex xs ys
  | [], [] => 0
  | [], _ :: _ => -1
  | _ :: _, [] => 1

/-- The parent-directory entry as the file explorer lists it: `..` with the
slash that `handle_fileexplorer` appends to a directory, or the bare `..`
that `readdir` returns. -/
def is_parent_entry (s : List Char) : Bool :=
  s == "../".toList || s == "..".toList

/-- The collation in the words of the specification: the parent-directory
entry first, any two other entries by `caseless_lex`. -/
def collation_spec (a b : List Char) : Int :=
  if is_parent_entry a then -1
  else if is_parent_entry b then 1
  else caseless_lex a b

/-- Whether two consecutive dots occur somewhere in `s`. -/
def has_dotdot (s : List Char) : Bool :=
  match s with
  | [] => false
  | c :: t => dotdot_at (c :: t) || has_dotdot t
/-! ## Scrollable list: lemmas -/

theorem scroll_up_spec (y1 cur y2 scroll : Int) :
    scroll_up y1 cur y2 scroll = max scroll (y1 + cur - y2 + 1) := by
  generalize hm : (y1 + cur - scroll - y2 + 1).toNat = m
  induction m generalizing scroll with
  | zero =>
    rw [scroll_up, if_neg (by omega)]; omega
  | succ m ih =>
    rw [scroll_up, if_pos (by omega), ih (scroll + 1) (by omega)]; omega

theorem scroll_down_spec (cur scroll : Int) :
    scroll_down cur scroll = min scroll cur := by
  generalize hm : (scroll - cur).toNat = m
  induction m generalizing scroll with
  | zero =>
    rw [scroll_down, if_neg (by omega)]; omega
  | succ m ih =>
    rw [scroll_down, if_pos (by omega), ih (scroll - 1) (by omega)]; omega

theorem move_step_frame (T : gui_list) (key : MoveKey) :
    (move_step T key).n_elems = T.n_elems ∧ (move_step T key).y1 = T.y1 ∧
      (move_step T key).y2 = T.y2 ∧ (move_step T key).elems = T.elems := by
  cases key <;> simp [move_step, HANDLE_SCROLL, BASIC_MOVEMENT]

theorem move_step_inv (T : gui_list) (key : MoveKey) (hn : 0 < T.n_elems)
    (hy : T.y1 < T.y2) (hc : 0 ≤ T.cur ∧ T.cur ≤ T.n_elems - 1) :
    list_inv (move_step T key) := by
  obtain ⟨hc0, hc1⟩ := hc
  cases key <;>
    simp only [list_inv, move_step, HANDLE_SCROLL, BASIC_MOVEMENT, scroll_up_spec,
      scroll_down_spec] <;>
    (try split) <;> omega

theorem move_run_inv (keys : List MoveKey) (T : gui_list) (hn : 0 < T.n_elems)
    (hy : T.y1 < T.y2) (hinv : list_inv T) :
    list_inv (move_run T keys) ∧ (move_run T keys).n_elems = T.n_elems ∧
      (move_run T keys).y1 = T.y1 ∧ (move_run T keys).y2 = T.y2 := by
  induction keys generalizing T with
  | nil => exact ⟨hinv, rfl, rfl, rfl⟩
  | cons key keys ih =>
    obtain ⟨f1, f2, f3, _⟩ := move_step_frame T key
    have hstep := move_step_inv T key hn hy ⟨hinv.1, hinv.2.1⟩
    have := ih (move_step T key) (by omega) (by omega) hstep
    simp only [move_run, List.foldl_cons] at this ⊢
    obtain ⟨h1, h2, h3, h4⟩ := this
    exact ⟨h1, by omega, by omega, by omega⟩

/-! ## libc model: lemmas -/

theorem fgets_chars_line (k : Nat) (l rest : List Char) (hnl : '\n' ∉ l) (hk : l.length < k) :
    fgets_chars k (l ++ '\n' :: rest) = (l ++ ['\n'], rest, false) := by
  induction l generalizing k with
  | nil =>
    obtain ⟨k, rfl⟩ : ∃ j, k = j + 1 := ⟨k - 1, by simp at hk; omega⟩
    simp [fgets_chars]
  | cons c cs ih =>
    obtain ⟨k, rfl⟩ : ∃ j, k = j + 1 := ⟨k - 1, by simp at hk; omega⟩
    simp only [List.mem_cons, not_or] at hnl
    have hc : c ≠ '\n' := fun h => hnl.1 h.symm
    simp only [List.length_cons, Nat.add_lt_add_iff_right] at hk
    simp [fgets_chars, hc, ih k hnl.2 hk]

theorem fgets_chars_full (k : Nat) (l rest : List Char) (hnl : '\n' ∉ l) (hk : l.length = k) :
    fgets_chars k (l ++ rest) = (l, rest, false) := by
  induction l generalizing k with
  | nil =>
    simp at hk; subst hk
    cases rest <;> simp [fgets_chars]
  | cons c cs ih =>
    obtain ⟨k, rfl⟩ : ∃ j, k = j + 1 := ⟨k - 1, by simp at hk; omega⟩
    simp only [List.mem_cons, not_or] at hnl
    have hc : c ≠ '\n' := fun h => hnl.1 h.symm
    simp only [List.length_cons, Nat.add_right_cancel_iff] at hk
    simp [fgets_chars, hc, ih k hnl.2 hk]

theorem cstr_eq_self (l : List Char) (h0 : '\x00' ∉ l) : cstr l = l := by
  unfold cstr
  rw [List.takeWhile_eq_self_iff]
  intro c hc
  simp only [ne_eq, decide_not, Bool.not_eq_true', decide_eq_false_iff_not]
  rintro rfl
  exact h0 hc

theorem fgets_line (size : Nat) (buf l rest : List Char) (e : Bool) (hnl : '\n' ∉ l)
    (h0 : '\x00' ∉ l) (hk : l.length + 2 ≤ size) :
    fgets size buf { data := l ++ '\n' :: rest, eof := e } =
      (l ++ ['\n'], { data := rest, eof := e }) := by
  obtain ⟨k, rfl⟩ : ∃ j, size = j + 1 := ⟨size - 1, by omega⟩
  have h0' : '\x00' ∉ l ++ ['\n'] := by
    simp only [List.mem_append, List.mem_singleton, not_or]
    exact ⟨h0, by decide⟩
  simp [fgets, fgets_chars_line k l rest hnl (by omega), cstr_eq_self _ h0']

theorem strndup_minus_one_line (l : List Char) : strndup_minus_one (l ++ ['\n']) = l := by
  simp [strndup_minus_one]

/-- The text of the item lines written by `save_playlist`. -/
theorem read_elems_lines (PATH_MAX : Nat) (t : Term) (P : List (List Char))
    (buf rest : List Char)
    (hp : ∀ p ∈ P, '\n' ∉ p ∧ '\x00' ∉ p ∧ p.length + 2 ≤ PATH_MAX) :
    read_elems PATH_MAX t P.length buf
        { data := (P.map (fun p => p ++ ['\n'])).flatten ++ rest, eof := false } =
      (P, [], Ending.returned) := by
  induction P generalizing buf with
  | nil => simp [read_elems]
  | cons p ps ih =>
    obtain ⟨h1, h2, h3⟩ := hp p (List.mem_cons_self _ _)
    have hps : ∀ q ∈ ps, '\n' ∉ q ∧ '\x00' ∉ q ∧ q.length + 2 ≤ PATH_MAX :=
      fun q hq => hp q (List.mem_cons_of_mem _ hq)
    have hdata : ((p :: ps).map (fun p => p ++ ['\n'])).flatten ++ rest =
        p ++ '\n' :: ((ps.map (fun p => p ++ ['\n'])).flatten ++ rest) := by
      simp
    simp only [List.length_cons, read_elems, feof, hdata,
      fgets_line PATH_MAX buf p _ false h1 h2 h3, strndup_minus_one_line, ih _ hps]
    simp

theorem digit_char_spec (d : Nat) (hd : d < 10) :
    isdigit (digit_char d) = true ∧ (digit_char d).toNat - 48 = d ∧
      isspace (digit_char d) = false ∧ digit_char d ≠ '-' ∧ digit_char d ≠ '+' := by
  revert d
  decide

theorem fmt_u_lt (n : Nat) (h : n < 10) : fmt_u n = [digit_char n] := by
  rw [fmt_u, if_pos h]

theorem fmt_u_ge (n : Nat) (h : ¬ n < 10) :
    fmt_u n = fmt_u (n / 10) ++ [digit_char (n % 10)] := by
  rw [fmt_u, if_neg h]

theorem fmt_u_head (n : Nat) : ∃ d cs, d < 10 ∧ fmt_u n = digit_char d :: cs := by
  induction n using Nat.strong_induction_on with
  | _ n ih =>
    by_cases h : n < 10
    · exact ⟨n, [], h, fmt_u_lt n h⟩
    · obtain ⟨d, cs, hd, hcs⟩ := ih (n / 10) (by omega)
      exact ⟨d, cs ++ [digit_char (n % 10)], hd, by rw [fmt_u_ge n h, hcs]; rfl⟩

theorem fmt_u_length (k n : Nat) (h : n < 10 ^ (k + 1)) : (fmt_u n).length ≤ k + 1 := by
  induction k generalizing n with
  | zero => rw [fmt_u_lt n (by simpa using h)]; simp
  | succ k ih =>
    by_cases h10 : n < 10
    · rw [fmt_u_lt n h10]; simp
    · rw [fmt_u_ge n h10]
      have : n / 10 < 10 ^ (k + 1) := by
        rw [Nat.div_lt_iff_lt_mul (by norm_num)]
        calc n < 10 ^ (k + 1 + 1) := h
          _ = 10 ^ (k + 1) * 10 := by ring
      have := ih (n / 10) this
      simp only [List.length_append, List.length_singleton]
      omega

theorem fmt_u_no_newline_nul (n : Nat) : '\n' ∉ fmt_u n ∧ '\x00' ∉ fmt_u n := by
  induction n using Nat.strong_induction_on with
  | _ n ih =>
    have hd : ∀ d, d < 10 → digit_char d ≠ '\n' ∧ digit_char d ≠ '\x00' := by decide
    by_cases h : n < 10
    · rw [fmt_u_lt n h]
      have := hd n h
      simp only [List.mem_singleton]
      exact ⟨fun e => this.1 e.symm, fun e => this.2 e.symm⟩
    · rw [fmt_u_ge n h]
      have := hd (n % 10) (Nat.mod_lt _ (by norm_num))
      have ih' := ih (n / 10) (by omega)
      simp only [List.mem_append, List.mem_singleton, not_or]
      exact ⟨⟨ih'.1, fun e => this.1 e.symm⟩, ⟨ih'.2, fun e => this.2 e.symm⟩⟩

theorem atoi_digits_fmt_u (n : Nat) (rest : List Char) :
    atoi_digits 0 (fmt_u n ++ rest) = atoi_digits n rest := by
  induction n using Nat.strong_induction_on generalizing rest with
  | _ n ih =>
    by_cases h : n < 10
    · obtain ⟨h1, h2, -⟩ := digit_char_spec n h
      rw [fmt_u_lt n h]
      simp [atoi_digits, h1, h2]
    · obtain ⟨h1, h2, -⟩ := digit_char_spec (n % 10) (Nat.mod_lt _ (by norm_num))
      rw [fmt_u_ge n h, List.append_assoc, ih (n / 10) (by omega)]
      simp only [List.singleton_append, atoi_digits, h1, if_true, h2]
      congr 1
      omega

theorem atoi_fmt_u_line (n : Nat) : atoi (fmt_u n ++ ['\n']) = (n : Int) := by
  obtain ⟨d, cs, hd, hcs⟩ := fmt_u_head n
  obtain ⟨-, -, h3, h4, h5⟩ := digit_char_spec d hd
  have hval : atoi_digits 0 (fmt_u n ++ ['\n']) = n := by
    rw [atoi_digits_fmt_u]
    simp [atoi_digits, isdigit]
  have hdrop : (fmt_u n ++ ['\n']).dropWhile isspace = digit_char d :: (cs ++ ['\n']) := by
    rw [hcs]; simp [List.dropWhile, h3]
  unfold atoi
  rw [hdrop]
  split
  · rename_i heq; simp only [List.cons.injEq] at heq; exact absurd heq.1 h4
  · rename_i heq; simp only [List.cons.injEq] at heq; exact absurd heq.1 h5
  · rw [← List.cons_append, ← hcs, hval]

theorem header_no_newline_nul :
    '\n' ∉ MPVQ_PLIST_HEADER ∧ '\x00' ∉ MPVQ_PLIST_HEADER ∧ MPVQ_PLIST_HEADER.length = 12 := by
  decide

theorem strncmp_header_line :
    strncmp_eq (MPVQ_PLIST_HEADER ++ ['\n']) MPVQ_PLIST_HEADER MPVQ_PLIST_HEADER.length = true := by
  decide

/-- Reading a file that starts with the header line and a count line `n`:
what is left for the loop of `read_playlist`. -/
theorem read_playlist_header_count (PATH_MAX : Nat) (t : Term)
    (stack_buf strerror body : List Char)
    (givenpath : Bool) (old : gui_list) (n : Nat) (hmax : 14 ≤ PATH_MAX)
    (hn : (fmt_u n).length + 2 ≤ PATH_MAX) :
    read_playlist PATH_MAX t stack_buf strerror givenpath true
        (some (MPVQ_PLIST_HEADER ++ ['\n'] ++ fmt_u n ++ ['\n'] ++ body)) old =
      ⟨{ (if givenpath = true ∨ old.n_elems > 0 then init_playlist old else old) with
          n_elems := n
          elems := (read_elems PATH_MAX t n (fmt_u n ++ ['\n'])
            { data := body, eof := false }).1 },
        (read_elems PATH_MAX t n (fmt_u n ++ ['\n']) { data := body, eof := false }).2.1,
        (read_elems PATH_MAX t n (fmt_u n ++ ['\n']) { data := body, eof := false }).2.2⟩ := by
  obtain ⟨h1, h2, h3⟩ := header_no_newline_nul
  obtain ⟨h4, h5⟩ := fmt_u_no_newline_nul n
  have e1 : MPVQ_PLIST_HEADER ++ ['\n'] ++ fmt_u n ++ ['\n'] ++ body =
      MPVQ_PLIST_HEADER ++ '\n' :: (fmt_u n ++ '\n' :: body) := by simp
  unfold read_playlist
  rw [if_neg (by simp)]
  simp only [e1, fgets_line PATH_MAX stack_buf MPVQ_PLIST_HEADER _ false h1 h2 (by omega),
    strncmp_header_line, fgets_line PATH_MAX _ (fmt_u n) body false h4 h5 hn, atoi_fmt_u_line,
    Int.toNat_ofNat]
  simp

/-- Saving a one-item playlist whose path fills the line buffer and reading it
back: the item read is the path without its last byte. -/
theorem read_back_long_path (PATH_MAX : Nat) (t : Term) (l : List Char) (hmax : 14 ≤ PATH_MAX)
    (hnl : '\n' ∉ l) (h0 : '\x00' ∉ l) (hlen : l.length + 1 = PATH_MAX) :
    (read_playlist PATH_MAX t [] [] true true
      (save_playlist t [] true true ⟨0, 0, 1, [l], 1, 10⟩).text
      ⟨0, 0, 0, [], 1, 10⟩).playlist.elems = [l.take (l.length - 1)] := by
  obtain ⟨k, rfl⟩ : ∃ j, PATH_MAX = j + 1 := ⟨PATH_MAX - 1, by omega⟩
  have htext : playlist_text ⟨0, 0, 1, [l], 1, 10⟩ =
      MPVQ_PLIST_HEADER ++ ['\n'] ++ fmt_u 1 ++ ['\n'] ++ (l ++ ['\n']) := by
    simp [playlist_text, fmt_d]
  have hline := fgets_chars_full k l ['\n'] hnl (by omega)
  have hfmt : fmt_u 1 = ['1'] := by rw [fmt_u_lt 1 (by norm_num)]; rfl
  have hne : l ≠ [] := by
    intro h; rw [h] at hlen; simp at hlen; omega
  have hne' : l.length ≠ 0 := by
    intro h; exact hne (List.length_eq_zero.mp h)
  simp only [save_playlist, if_false, Bool.true_eq_false, htext,
    read_playlist_header_count (k + 1) t [] [] _ true ⟨0, 0, 0, [], 1, 10⟩ 1 hmax
      (by rw [hfmt]; simp; omega)]
  simp [read_elems, feof, fgets, hline, cstr_eq_self _ h0, strndup_minus_one, hne, hne']

theorem swap_some {α : Type} (a : List α) (i j : Nat) (hi : i < a.length) (hj : j < a.length) :
    swap a i j = some ((a.set i (a.get ⟨j, hj⟩)).set j (a.get ⟨i, hi⟩)) := by
  simp [swap, List.getElem?_eq_getElem hi, List.getElem?_eq_getElem hj]

theorem swap_perm {α : Type} (a b : List α) (i j : Nat) (h : swap a i j = some b) :
    b.Perm a ∧ b.length = a.length := by
  classical
  unfold swap at h
  split at h
  · rename_i x y hx hy
    simp only [Option.some.injEq] at h
    subst h
    obtain ⟨hi, hxi⟩ := List.getElem?_eq_some_iff.mp hx
    obtain ⟨hj, hyj⟩ := List.getElem?_eq_some_iff.mp hy
    refine ⟨?_, by simp⟩
    rw [List.perm_iff_count]
    intro c
    have hj' : j < (a.set i y).length := by simpa using hj
    have hget : (a.set i y)[j] = y := by
      rw [List.getElem_set]
      split
      · rfl
      · exact hyj
    rw [List.count_set _ _ _ _ hj', hget, List.count_set _ _ _ _ hi, hxi]
    have hxm : x ∈ a := hxi ▸ List.getElem_mem hi
    have hpos : (x == c) = true → 0 < a.count c := by
      intro hxc
      have : x = c := by simpa using hxc
      exact List.count_pos_iff.mpr (this ▸ hxm)
    have hle : (if (x == c) = true then 1 else 0) ≤ a.count c := by
      split
      · rename_i hxc; exact hpos hxc
      · omega
    omega
  · simp at h

theorem shuf_loop_perm {α : Type} (rand : Nat → Nat) (len i call : Nat) (a : List α)
    (hlen : a.length = len) (hi : i < len ∨ i = 0) :
    ∃ b, shuf_loop rand len i call a = some b ∧ b.Perm a ∧ b.length = a.length := by
  induction i generalizing call a with
  | zero => exact ⟨a, rfl, List.Perm.refl _, rfl⟩
  | succ i ih =>
    have hi' : i + 1 < len := by omega
    have hr : rand call % 2 ^ 32 % len < a.length := by
      rw [hlen]; exact Nat.mod_lt _ (by omega)
    have hs := swap_some a (rand call % 2 ^ 32 % len) (i + 1) hr (by omega)
    obtain ⟨hp, hl⟩ := swap_perm a _ _ _ hs
    obtain ⟨b, hb, hbp, hbl⟩ := ih (call + 1) _ (by rw [hl, hlen]) (by omega)
    refine ⟨b, ?_, hbp.trans hp, by rw [hbl, hl]⟩
    simp only [shuf_loop, if_neg (show ¬ len = 0 by omega), hs, hb]

/-! ## `strrchr`, `is_music_ext`, `alphabetical`: lemmas -/

theorem strrchr_none_iff (s : List Char) (c : Char) : strrchr s c = none ↔ c ∉ s := by
  induction s with
  | nil => simp [strrchr]
  | cons x xs ih =>
    cases h : strrchr xs c with
    | none =>
      have hxs : c ∉ xs := ih.mp h
      by_cases hx : x = c
      · simp [strrchr, h, hx]
      · have hx' : ¬ c = x := fun e => hx e.symm
        simp [strrchr, h, hx, hx', hxs]
    | some r =>
      have hxs : c ∈ xs := by
        by_contra hc
        rw [ih.mpr hc] at h
        exact Option.noConfusion h
      simp [strrchr, h, hxs]

/-- What `strrchr` returns starts at the last occurrence of `c`. -/
theorem strrchr_some (s : List Char) (c : Char) (r : List Char) (h : strrchr s c = some r) :
    ∃ pre suf, s = pre ++ c :: suf ∧ c ∉ suf ∧ r = c :: suf := by
  induction s generalizing r with
  | nil => simp [strrchr] at h
  | cons x xs ih =>
    cases hxs : strrchr xs c with
    | none =>
      have hnot : c ∉ xs := (strrchr_none_iff xs c).mp hxs
      by_cases hx : x = c
      · simp only [strrchr, hxs, hx, if_true, Option.some.injEq] at h
        exact ⟨[], xs, by simp [hx], hnot, h.symm⟩
      · simp [strrchr, hxs, hx] at h
    | some r1 =>
      simp only [strrchr, hxs, Option.some.injEq] at h
      obtain ⟨pre, suf, h1, h2, h3⟩ := ih r1 hxs
      exact ⟨x :: pre, suf, by simp [h1], h2, by rw [← h, h3]⟩

theorem strrchr_last (pre suf : List Char) (c : Char) (h : c ∉ suf) :
    strrchr (pre ++ c :: suf) c = some (c :: suf) := by
  induction pre with
  | nil => simp [strrchr, (strrchr_none_iff suf c).mpr h]
  | cons x pre ih => simp [strrchr, ih]

theorem alphabetical_dotdot_left (a b : List Char) (h : dotdot_at a = true) :
    alphabetical a b = -1 := by
  unfold alphabetical
  simp [h]

theorem alphabetical_dotdot_right (a b : List Char) (ha : dotdot_at a = false)
    (hb : dotdot_at b = true) : alphabetical a b = 1 := by
  unfold alphabetical
  simp [ha, hb]

/-- On names without two consecutive dots the comparator is the
case-insensitive lexicographic comparison. -/
theorem alphabetical_eq_caseless_lex (a b : List Char) (ha : has_dotdot a = false)
    (hb : has_dotdot b = false) : alphabetical a b = caseless_lex a b := by
  have hnil : dotdot_at [] = false := rfl
  induction a generalizing b with
  | nil =>
    cases b with
    | nil => unfold alphabetical; simp [hnil, caseless_lex]
    | cons y ys =>
      have hy : dotdot_at (y :: ys) = false := by
        simp only [has_dotdot, Bool.or_eq_false_iff] at hb; exact hb.1
      unfold alphabetical
      simp only [hnil, hy, Bool.false_eq_true, if_false]
      simp [caseless_lex]
  | cons x xs ih =>
    simp only [has_dotdot, Bool.or_eq_false_iff] at ha
    cases b with
    | nil =>
      unfold alphabetical
      simp only [hnil, ha.1, Bool.false_eq_true, if_false]
      simp [caseless_lex]
    | cons y ys =>
      simp only [has_dotdot, Bool.or_eq_false_iff] at hb
      unfold alphabetical
      simp only [ha.1, hb.1, Bool.false_eq_true, if_false]
      rw [ih ys ha.2 hb.2]
      simp [caseless_lex]

/-- On a name split at its last dot, `is_music_ext` is the table lookup of
what follows the dot. -/
theorem is_music_ext_split (pre ext : List Char) (h : '.' ∉ ext) :
    is_music_ext (pre ++ '.' :: ext) = music_file_extensions.any (fun e => e == ext) := by
  simp [is_music_ext, getext, strrchr_last pre ext '.' h]

theorem is_music_ext_no_dot (s : List Char) (h : '.' ∉ s) : is_music_ext s = false := by
  simp [is_music_ext, getext, (strrchr_none_iff s '.').mpr h]

theorem music_ext_lookup (ext : List Char) :
    music_file_extensions.any (fun e => e == ext) = true ↔
      (ext = "mp3".toList ∨ ext = "wav".toList ∨ ext = "ogg".toList ∨ ext = "flac".toList) := by
  simp only [music_file_extensions, List.any_cons, List.any_nil, Bool.or_false,
    Bool.or_eq_true, beq_iff_eq]
  constructor
  · rintro (h | h | h | h) <;> simp [← h]
  · rintro (h | h | h | h) <;> simp [h]

/-! ## Scrollable list: the scroll offset after a step -/

theorem move_step_scroll (T : gui_list) (key : MoveKey) :
    (move_step T key).scroll =
      min (max T.scroll (T.y1 + (move_step T key).cur - T.y2 + 1)) (move_step T key).cur := by
  cases key <;>
    simp only [move_step, HANDLE_SCROLL, BASIC_MOVEMENT, scroll_up_spec, scroll_down_spec]

theorem move_run_scroll_nonneg (keys : List MoveKey) (T : gui_list) (hn : 0 < T.n_elems)
    (hy : T.y1 < T.y2) (hinv : list_inv T) (h0 : 0 ≤ T.scroll) :
    0 ≤ (move_run T keys).scroll := by
  induction keys generalizing T with
  | nil => exact h0
  | cons key keys ih =>
    obtain ⟨f1, f2, f3, _⟩ := move_step_frame T key
    have hstep := move_step_inv T key hn hy ⟨hinv.1, hinv.2.1⟩
    have hsc := move_step_scroll T key
    have h0' : 0 ≤ (move_step T key).scroll := by
      have := hstep.1
      omega
    have := ih (move_step T key) (by omega) (by omega) hstep h0'
    simpa only [move_run, List.foldl_cons] using this

/-! ## Claims -/

/-- C1: for a list with `n_elems > 0` and a viewport with `y1 < y2`, starting
from `cur = 0`, `scroll = 0`, after any finite sequence of the keys `j`, `k`,
`g`, `G`, each followed by `HANDLE_SCROLL`, the cursor lies in `[0, n_elems-1]`
and `scroll <= cur` and `y1 + cur - scroll < y2`. -/
theorem C1_cursor_and_viewport_invariant (T : gui_list) (keys : List MoveKey)
    (hn : 0 < T.n_elems) (hy : T.y1 < T.y2) (hc : T.cur = 0) (hs : T.scroll = 0) :
    0 ≤ (move_run T keys).cur ∧ (move_run T keys).cur ≤ T.n_elems - 1 ∧
      (move_run T keys).scroll ≤ (move_run T keys).cur ∧
      T.y1 + (move_run T keys).cur - (move_run T keys).scroll < T.y2 := by
  have hinv : list_inv T := by
    simp only [list_inv, hc, hs]; omega
  obtain ⟨⟨h1, h2, h3, h4⟩, e1, e2, e3⟩ := move_run_inv keys T hn hy hinv
  rw [e1] at h2
  rw [e2, e3] at h4
  exact ⟨h1, h2, h3, h4⟩

/-- A three-item list in a two-row viewport, keys `G`, `k`, `j`, `g`. -/
theorem C1_cursor_and_viewport_invariant_witness :
    let T : gui_list := ⟨0, 0, 3, ["a".toList, "b".toList, "c".toList], 1, 3⟩
    let keys := [MoveKey.G, MoveKey.k, MoveKey.j, MoveKey.g]
    (0 < T.n_elems ∧ T.y1 < T.y2) ∧
      (0 ≤ (move_run T keys).cur ∧ (move_run T keys).cur ≤ T.n_elems - 1 ∧
        (move_run T keys).scroll ≤ (move_run T keys).cur ∧
        T.y1 + (move_run T keys).cur - (move_run T keys).scroll < T.y2) :=
  ⟨⟨by decide, by decide⟩,
    C1_cursor_and_viewport_invariant ⟨0, 0, 3, ["a".toList, "b".toList, "c".toList], 1, 3⟩
      [MoveKey.G, MoveKey.k, MoveKey.j, MoveKey.g] (by decide) (by decide) rfl rfl⟩

/-- C2 (as amended): save-then-load round trip.  For a playlist `P` whose
`n_elems` is the number of its items and fits an `int`, and whose paths hold no
newline and have at most `PATH_MAX - 2` bytes (the path and its newline fit
the `PATH_MAX - 1` bytes one `fgets` call returns), `save_playlist` writes
`playlist_text P` and `read_playlist` reads that text back as exactly the paths
of `P` in the same order, with the same count, without an alert, and returns,
whatever the terminal. -/
theorem C2_save_load_roundtrip (PATH_MAX : Nat) (t : Term) (stack_buf strerror : List Char)
    (givenpath : Bool)
    (old P : gui_list) (hmax : 14 ≤ PATH_MAX) (hn : P.n_elems = P.elems.length)
    (hint : P.n_elems < 2 ^ 31)
    (hp : ∀ p ∈ P.elems, '\n' ∉ p ∧ '\x00' ∉ p ∧ p.length + 2 ≤ PATH_MAX) :
    save_playlist t strerror true true P = ⟨some (playlist_text P), [], .returned⟩ ∧
      (read_playlist PATH_MAX t stack_buf strerror givenpath true
        (some (playlist_text P)) old).playlist.elems = P.elems ∧
      (read_playlist PATH_MAX t stack_buf strerror givenpath true
        (some (playlist_text P)) old).playlist.n_elems = P.n_elems ∧
      (read_playlist PATH_MAX t stack_buf strerror givenpath true
        (some (playlist_text P)) old).alerts = [] ∧
      (read_playlist PATH_MAX t stack_buf strerror givenpath true
        (some (playlist_text P)) old).ending = .returned := by
  have hlen : (fmt_u P.elems.length).length + 2 ≤ PATH_MAX := by
    have := fmt_u_length 9 P.elems.length (by rw [hn] at hint; norm_num at hint ⊢; omega)
    omega
  have htext : playlist_text P =
      MPVQ_PLIST_HEADER ++ ['\n'] ++ fmt_u P.elems.length ++ ['\n'] ++
        ((P.elems.map (fun p => p ++ ['\n'])).flatten ++ []) := by
    simp [playlist_text, fmt_d, hn]
  refine ⟨by simp [save_playlist], ?_⟩
  rw [htext, read_playlist_header_count PATH_MAX t stack_buf strerror _ givenpath old
      P.elems.length hmax hlen,
    read_elems_lines PATH_MAX t P.elems _ [] hp]
  exact ⟨rfl, hn.symm, rfl, rfl⟩

/-- The playlist `["/a", "/music/b.mp3"]` with `PATH_MAX = 4096`, read from the
file explorer on an 80 by 24 terminal over the store `["/c"]`. -/
theorem C2_save_load_roundtrip_witness :
    let P : gui_list := ⟨0, 0, 2, ["/a".toList, "/music/b.mp3".toList], 1, 10⟩
    let old : gui_list := ⟨0, 0, 1, ["/c".toList], 1, 10⟩
    save_playlist ⟨80, 24⟩ [] true true P = ⟨some (playlist_text P), [], .returned⟩ ∧
      (read_playlist 4096 ⟨80, 24⟩ [] [] false true
        (some (playlist_text P)) old).playlist.elems = P.elems ∧
      (read_playlist 4096 ⟨80, 24⟩ [] [] false true
        (some (playlist_text P)) old).playlist.n_elems = P.n_elems ∧
      (read_playlist 4096 ⟨80, 24⟩ [] [] false true (some (playlist_text P)) old).alerts = [] ∧
      (read_playlist 4096 ⟨80, 24⟩ [] [] false true
        (some (playlist_text P)) old).ending = .returned :=
  C2_save_load_roundtrip 4096 ⟨80, 24⟩ [] [] false ⟨0, 0, 1, ["/c".toList], 1, 10⟩
    ⟨0, 0, 2, ["/a".toList, "/music/b.mp3".toList], 1, 10⟩ (by decide) (by decide) (by decide)
    (by decide)

/-- C2 as stated fails at the boundary: with `PATH_MAX = 4096`, a path of 4095
bytes without a newline is shorter than the line buffer, yet `fgets` returns
its 4095 bytes without the newline and `strndup(buf, strlen(buf) - 1)` drops
the last byte of the path, so the item read back is one byte shorter. -/
theorem C2_roundtrip_counterexample :
    ('\n' ∉ List.replicate 4095 'a' ∧ (List.replicate 4095 'a').length < 4096) ∧
      (read_playlist 4096 ⟨80, 24⟩ [] [] true true
        (save_playlist ⟨80, 24⟩ [] true true ⟨0, 0, 1, [List.replicate 4095 'a'], 1, 10⟩).text
        ⟨0, 0, 0, [], 1, 10⟩).playlist.elems ≠ [List.replicate 4095 'a'] := by
  have hnl : '\n' ∉ List.replicate 4095 'a' := fun h =>
    absurd (List.eq_of_mem_replicate h) (by decide)
  have h0 : '\x00' ∉ List.replicate 4095 'a' := fun h =>
    absurd (List.eq_of_mem_replicate h) (by decide)
  have hlen : (List.replicate 4095 'a').length = 4095 := List.length_replicate _ _
  refine ⟨⟨hnl, by rw [hlen]; norm_num⟩, ?_⟩
  rw [read_back_long_path 4096 ⟨80, 24⟩ (List.replicate 4095 'a') (by norm_num) hnl h0
    (by rw [hlen])]
  intro h
  have h2 := congrArg (fun l => l.map List.length) h
  simp only [List.map_cons, List.map_nil, List.length_take, hlen, List.cons.injEq,
    and_true] at h2
  omega

/-- C4, the code at the failing input: a valid header, a declared count of 4
and three path lines.  `feof` is tested before each `fgets`, and the
end-of-file indicator is only set by the fourth `fgets`; the loop ends without
calling `modal_alert` and stores the stale buffer as a fourth item, both when
the file is given on the command line (termbox not yet initialised) and when it
is loaded from the file explorer.  With a declared count of 5 the fifth
iteration does call `modal_alert`: from the file explorer on an 80 by 24
terminal the alert is shown once and a fifth item is stored; on the command
line the process ends there with "terminal too small". -/
theorem C4_short_file_no_alert :
    read_playlist 4096 ⟨-8, -8⟩ [] [] true false (some "_MPVQ_PLIST_\n4\n/a\n/b\n/c\n".toList)
        ⟨0, 0, 0, [], 1, 10⟩ =
      ⟨⟨0, 0, 4, ["/a".toList, "/b".toList, "/c".toList, "/c".toList], 1, 10⟩, [],
        .returned⟩ ∧
    read_playlist 4096 ⟨80, 24⟩ [] [] false true (some "_MPVQ_PLIST_\n4\n/a\n/b\n/c\n".toList)
        ⟨0, 0, 0, [], 1, 10⟩ =
      ⟨⟨0, 0, 4, ["/a".toList, "/b".toList, "/c".toList, "/c".toList], 1, 10⟩, [],
        .returned⟩ ∧
    read_playlist 4096 ⟨80, 24⟩ [] [] false true (some "_MPVQ_PLIST_\n5\n/a\n/b\n/c\n".toList)
        ⟨0, 0, 0, [], 1, 10⟩ =
      ⟨⟨0, 0, 5, ["/a".toList, "/b".toList, "/c".toList, "/c".toList, "/c".toList], 1, 10⟩,
        [Alert.corrupted], .returned⟩ ∧
    (read_playlist 4096 ⟨-8, -8⟩ [] [] true false
        (some "_MPVQ_PLIST_\n5\n/a\n/b\n/c\n".toList) ⟨0, 0, 0, [], 1, 10⟩).ending =
      .exit_too_small := by
  decide

/-- C5: "play selected" on a valid cursor puts the player in state Playing
with `current_playing = cur`.  In every Playing state `t` of that playlist
with a valid `current_playing = i` (the state just reached is one), an
end-of-file event with reason EOF sets `current_playing` to `i + 1`, sends
`loadfile` for item `i + 1` and leaves the state Playing when
`i + 1 < n_elems`; otherwise it sets the state to nothing-playing and
`current_playing` to 0.  An end-of-file event with another reason, and any
other event, change nothing. -/
theorem C5_end_of_track (rand : Nat → Nat) (s0 : App)
    (hn : s0.playlist.n_elems = s0.playlist.elems.length)
    (hc : 0 ≤ s0.playlist.cur ∧ s0.playlist.cur < s0.playlist.n_elems) :
    ∃ s p0, handle_playlist rand 'l' s0 = .ok s ∧ s.pstate = .state_playing ∧
      s.current_playing = s0.playlist.cur ∧ s.playlist.elems = s0.playlist.elems ∧
      s.playlist.n_elems = s0.playlist.n_elems ∧
      elem_at s0.playlist s0.playlist.cur = some p0 ∧
      s.commands = s0.commands ++ [mpv_cmd.loadfile p0] ∧
      ∀ t : App, t.pstate = .state_playing → t.playlist.elems = s0.playlist.elems →
        t.playlist.n_elems = s0.playlist.n_elems →
        0 ≤ t.current_playing → t.current_playing < t.playlist.n_elems →
        (t.current_playing + 1 < t.playlist.n_elems →
          ∃ p, elem_at t.playlist (t.current_playing + 1) = some p ∧
            event_waiter (.end_file .eof) t =
              .ok { t with current_playing := t.current_playing + 1
                           commands := t.commands ++ [mpv_cmd.loadfile p] }) ∧
        (¬ t.current_playing + 1 < t.playlist.n_elems →
          event_waiter (.end_file .eof) t =
            .ok { t with pstate := .state_nothing_playing, current_playing := 0 }) ∧
        (∀ r, r ≠ end_file_reason.eof → event_waiter (.end_file r) t = .ok t) ∧
        event_waiter .other t = .ok t := by
  obtain ⟨hc0, hc1⟩ := hc
  have hidx : s0.playlist.cur.toNat < s0.playlist.elems.length := by omega
  refine ⟨draw_playlist (play_song (some (s0.playlist.elems.get ⟨_, hidx⟩))
      { s0 with pstate := .state_playing, current_playing := s0.playlist.cur }),
    s0.playlist.elems.get ⟨_, hidx⟩, ?_, rfl, rfl, rfl, rfl, ?_, rfl, ?_⟩
  · simp [handle_playlist, handle_playlist_switch, elem_at, hc0,
      List.getElem?_eq_getElem hidx]
  · simp [elem_at, hc0, List.getElem?_eq_getElem hidx]
  · intro t _ hte htn ht0 ht1
    refine ⟨?_, ?_, ?_, rfl⟩
    · intro hnext
      have hidx' : (t.current_playing + 1).toNat < t.playlist.elems.length := by
        rw [hte]; omega
      refine ⟨t.playlist.elems.get ⟨_, hidx'⟩, ?_, ?_⟩
      · simp [elem_at, show 0 ≤ t.current_playing + 1 by omega,
          List.getElem?_eq_getElem hidx']
      · simp [event_waiter, hnext, elem_at, show 0 ≤ t.current_playing + 1 by omega,
          List.getElem?_eq_getElem hidx', play_song]
    · intro hlast
      simp [event_waiter, hlast]
    · intro r hr
      simp [event_waiter, hr]

/-- The playlist `[a, b]` played from index 0: the first EOF notification gives
(Playing, 1) and loads `b`, the second gives (nothing playing, 0). -/
theorem C5_end_of_track_witness :
    handle_playlist (fun _ => 0) 'l' ⟨⟨0, 0, 2, ["a".toList, "b".toList], 1, 10⟩, 0,
        .state_nothing_playing, []⟩ =
      .ok ⟨⟨0, 0, 2, ["a".toList, "b".toList], 1, 10⟩, 0, .state_playing,
        [mpv_cmd.loadfile "a".toList]⟩ ∧
    event_waiter (.end_file .eof) ⟨⟨0, 0, 2, ["a".toList, "b".toList], 1, 10⟩, 0,
        .state_playing, [mpv_cmd.loadfile "a".toList]⟩ =
      .ok ⟨⟨0, 0, 2, ["a".toList, "b".toList], 1, 10⟩, 1, .state_playing,
        [mpv_cmd.loadfile "a".toList, mpv_cmd.loadfile "b".toList]⟩ ∧
    event_waiter (.end_file .eof) ⟨⟨0, 0, 2, ["a".toList, "b".toList], 1, 10⟩, 1,
        .state_playing, [mpv_cmd.loadfile "a".toList, mpv_cmd.loadfile "b".toList]⟩ =
      .ok ⟨⟨0, 0, 2, ["a".toList, "b".toList], 1, 10⟩, 0, .state_nothing_playing,
        [mpv_cmd.loadfile "a".toList, mpv_cmd.loadfile "b".toList]⟩ := by
  obtain ⟨s, p0, hs, h1, h2, h3, h4, h5, h6, hall⟩ :=
    C5_end_of_track (fun _ => 0)
      ⟨⟨0, 0, 2, ["a".toList, "b".toList], 1, 10⟩, 0, .state_nothing_playing, []⟩
      (by decide) (by decide)
  refine ⟨?_, ?_, ?_⟩
  · simp [handle_playlist, handle_playlist_switch, elem_at, play_song, draw_playlist,
      HANDLE_SCROLL, scroll_up_spec, scroll_down_spec]
  · obtain ⟨p, hp, hev⟩ :=
      (hall ⟨⟨0, 0, 2, ["a".toList, "b".toList], 1, 10⟩, 0, .state_playing,
        [mpv_cmd.loadfile "a".toList]⟩ rfl rfl rfl (by decide) (by decide)).1 (by decide)
    have hb : p = "b".toList := by
      have : elem_at ⟨0, 0, 2, ["a".toList, "b".toList], 1, 10⟩ (0 + 1) = some "b".toList := by
        decide
      exact Option.some.inj (hp.symm.trans this)
    rw [hev, hb]
    rfl
  · exact (hall ⟨⟨0, 0, 2, ["a".toList, "b".toList], 1, 10⟩, 1, .state_playing,
      [mpv_cmd.loadfile "a".toList, mpv_cmd.loadfile "b".toList]⟩ rfl rfl rfl (by decide)
      (by decide)).2.1 (by decide)

/-- C6, the code at the failing input: the empty playlist of `init_playlist`,
nothing playing, space key.  `handle_playpause(1)` sets `pstate` to
`state_playing` without looking at `n_elems` and reads `playlist.elems[0]`
outside the (empty) array; the state does not remain nothing-playing. -/
theorem C6_toggle_on_empty_playlist :
    handle_playpause true ⟨⟨0, 0, 0, [], 1, 10⟩, 0, .state_nothing_playing, []⟩ =
      .fault ⟨⟨0, 0, 0, [], 1, 10⟩, 0, .state_playing, []⟩ ∧
    ui_space ⟨⟨0, 0, 0, [], 1, 10⟩, 0, .state_nothing_playing, []⟩ =
      .fault ⟨⟨0, 0, 0, [], 1, 10⟩, 0, .state_playing, []⟩ := by
  decide

/-- C7: for every playlist whose `n_elems` is its length and every sequence of
values of the random source, `shuf` returns (no division by zero, no access
outside the array) a permutation of the items of the same length, the `R` key
stores it as the playlist, and for `n_elems <= 1` the list is unchanged. -/
theorem C7_shuf_permutation (rand : Nat → Nat) (s : App)
    (hn : s.playlist.n_elems = s.playlist.elems.length) :
    ∃ b, shuf rand s.playlist.elems s.playlist.n_elems = some b ∧
      handle_playlist_switch rand 'R' s =
        .ok { s with playlist := { s.playlist with elems := b } } ∧
      b.Perm s.playlist.elems ∧ b.length = s.playlist.elems.length ∧
      (s.playlist.n_elems ≤ 1 → b = s.playlist.elems) := by
  have h1 : s.playlist.n_elems.toNat = s.playlist.elems.length := by omega
  have h2 : (s.playlist.n_elems - 1).toNat = s.playlist.elems.length - 1 := by omega
  obtain ⟨b, hb, hperm, hlen⟩ :=
    shuf_loop_perm rand s.playlist.elems.length (s.playlist.elems.length - 1) 0
      s.playlist.elems rfl (by omega)
  have hshuf : shuf rand s.playlist.elems s.playlist.n_elems = some b := by
    rw [shuf, h1, h2, hb]
  refine ⟨b, hshuf, ?_, hperm, hlen, ?_⟩
  · simp [handle_playlist_switch, hshuf]
  · intro hle
    have h0 : s.playlist.elems.length - 1 = 0 := by omega
    rw [h0] at hb
    simp only [shuf_loop, Option.some.injEq] at hb
    exact hb.symm

/-- A three-item playlist shuffled with the random values 7, 7, ... -/
theorem C7_shuf_permutation_witness :
    ∃ b, shuf (fun _ => 7) ["a".toList, "b".toList, "c".toList] 3 = some b ∧
      handle_playlist_switch (fun _ => 7) 'R'
          ⟨⟨0, 0, 3, ["a".toList, "b".toList, "c".toList], 1, 10⟩, 0, .state_nothing_playing, []⟩ =
        .ok ⟨⟨0, 0, 3, b, 1, 10⟩, 0, .state_nothing_playing, []⟩ ∧
      b.Perm ["a".toList, "b".toList, "c".toList] ∧ b.length = 3 ∧
      ((3 : Int) ≤ 1 → b = ["a".toList, "b".toList, "c".toList]) :=
  C7_shuf_permutation (fun _ => 7)
    ⟨⟨0, 0, 3, ["a".toList, "b".toList, "c".toList], 1, 10⟩, 0, .state_nothing_playing, []⟩
    (by decide)

/-- C8, the code at the failing input: the directory `/music` with the entries
`song.mp3`, `note.txt` and the directory `sub` holding `track.flac`, added to
an empty playlist.  The `readdir` loop hands an entry to `playlist_add_song`
only when its name passes `is_music_ext`; `sub` does not, so the loop never
descends into it and `track.flac` is not added. -/
theorem C8_subdirectory_skipped :
    is_music_ext "sub".toList = false ∧
    playlist_add_song "/music".toList
        (.dir (.file "song.mp3".toList (.file "note.txt".toList
          (.dir "sub".toList (.file "track.flac".toList .nil) .nil))))
        ⟨0, 0, 0, [], 1, 10⟩ =
      ⟨0, 0, 1, ["/music/song.mp3".toList], 1, 10⟩ := by
  decide

/-- C9, the code at failing inputs: `K` and `J` change `current_playing` by one
whenever they swap, whichever item is playing.  With `[a, b, c]`, the cursor on
`c` and `a` playing, `K` leaves `current_playing = -1`; with the cursor on `b`
and `c` playing, `K` moves the marker from `c` to `a`; with the cursor on `a`
and `c` playing, `J` leaves `current_playing = 3`, past the last item. -/
theorem C9_reorder_moves_marker :
    handle_playlist (fun _ => 0) 'K'
        ⟨⟨0, 2, 3, ["a".toList, "b".toList, "c".toList], 1, 10⟩, 0, .state_playing, []⟩ =
      .ok ⟨⟨0, 1, 3, ["a".toList, "c".toList, "b".toList], 1, 10⟩, -1, .state_playing, []⟩ ∧
    handle_playlist (fun _ => 0) 'K'
        ⟨⟨0, 1, 3, ["a".toList, "b".toList, "c".toList], 1, 10⟩, 2, .state_playing, []⟩ =
      .ok ⟨⟨0, 0, 3, ["b".toList, "a".toList, "c".toList], 1, 10⟩, 1, .state_playing, []⟩ ∧
    handle_playlist (fun _ => 0) 'J'
        ⟨⟨0, 0, 3, ["a".toList, "b".toList, "c".toList], 1, 10⟩, 2, .state_playing, []⟩ =
      .ok ⟨⟨0, 1, 3, ["b".toList, "a".toList, "c".toList], 1, 10⟩, 3, .state_playing, []⟩ := by
  refine ⟨?_, ?_, ?_⟩ <;>
    simp [handle_playlist, handle_playlist_switch, swap, draw_playlist, HANDLE_SCROLL,
      scroll_up_spec, scroll_down_spec]

/-- C10: for a playlist without duplicates whose `n_elems` is its length and a
path that is not a directory, `playlist_add_song` leaves the playlist as it is
when the path already occurs in it, and otherwise appends the path as the last
item and adds one to `n_elems`; the result has no duplicates. -/
theorem C10_add_no_duplicate (path : List Char) (pl : gui_list)
    (hn : pl.n_elems = pl.elems.length) (hnd : pl.elems.Nodup) :
    (path ∈ pl.elems → playlist_add_song path .file pl = pl) ∧
      (path ∉ pl.elems → playlist_add_song path .file pl =
        { pl with elems := pl.elems ++ [path], n_elems := pl.n_elems + 1 }) ∧
      (playlist_add_song path .file pl).elems.Nodup ∧
      (playlist_add_song path .file pl).n_elems = (playlist_add_song path .file pl).elems.length := by
  have htake : pl.elems.take pl.n_elems.toNat = pl.elems := by
    rw [hn, Int.toNat_ofNat, List.take_length]
  have hany : ((pl.elems.take pl.n_elems.toNat).any (fun e => path == e)) = true ↔
      path ∈ pl.elems := by
    rw [htake, List.any_eq_true]
    constructor
    · rintro ⟨e, he, hpe⟩
      have : path = e := by simpa using hpe
      exact this ▸ he
    · intro h
      exact ⟨path, h, by simp⟩
  have hin : path ∈ pl.elems → playlist_add_song path .file pl = pl := by
    intro h
    simp only [playlist_add_song, playlist_add_file, hany.mpr h, if_true]
  have hout : path ∉ pl.elems → playlist_add_song path .file pl =
      { pl with elems := pl.elems ++ [path], n_elems := pl.n_elems + 1 } := by
    intro h
    have : ¬ ((pl.elems.take pl.n_elems.toNat).any (fun e => path == e)) = true :=
      fun h' => h (hany.mp h')
    simp only [playlist_add_song, playlist_add_file]
    rw [if_neg this, htake]
  refine ⟨hin, hout, ?_, ?_⟩
  · by_cases h : path ∈ pl.elems
    · rw [hin h]; exact hnd
    · rw [hout h]
      exact List.Nodup.append hnd (List.nodup_singleton _) (by simpa using h)
  · by_cases h : path ∈ pl.elems
    · rw [hin h]; exact hn
    · rw [hout h]; simp [hn]

/-- Adding `/b` to `["/a", "/b"]` (already there). -/
theorem C10_add_no_duplicate_witness :
    playlist_add_song "/b".toList .file ⟨0, 0, 2, ["/a".toList, "/b".toList], 1, 10⟩ =
        ⟨0, 0, 2, ["/a".toList, "/b".toList], 1, 10⟩ ∧
      (playlist_add_song "/b".toList .file
        ⟨0, 0, 2, ["/a".toList, "/b".toList], 1, 10⟩).elems.Nodup :=
  ⟨(C10_add_no_duplicate "/b".toList ⟨0, 0, 2, ["/a".toList, "/b".toList], 1, 10⟩
      (by decide) (by decide)).1 (by decide),
    (C10_add_no_duplicate "/b".toList ⟨0, 0, 2, ["/a".toList, "/b".toList], 1, 10⟩
      (by decide) (by decide)).2.2.1⟩

/-- C11: `is_music_ext(s)` returns 1 exactly when `s` contains a `.` and what
follows its last `.` is, byte for byte, one of `mp3`, `wav`, `ogg`, `flac`; a
name without a `.` is never playable, and a name ending in `.MP3` is not
playable. -/
theorem C11_is_music_ext (s : List Char) :
    (is_music_ext s = true ↔
      ∃ pre ext, s = pre ++ '.' :: ext ∧ '.' ∉ ext ∧
        (ext = "mp3".toList ∨ ext = "wav".toList ∨ ext = "ogg".toList ∨ ext = "flac".toList)) ∧
    ('.' ∉ s → is_music_ext s = false) ∧
    is_music_ext (s ++ ".MP3".toList) = false := by
  refine ⟨⟨?_, ?_⟩, is_music_ext_no_dot s, ?_⟩
  · intro h
    cases hs : strrchr s '.' with
    | none => simp [is_music_ext, getext, hs] at h
    | some r =>
      obtain ⟨pre, ext, h1, h2, -⟩ := strrchr_some s '.' r hs
      refine ⟨pre, ext, h1, h2, ?_⟩
      rw [h1, is_music_ext_split pre ext h2] at h
      exact (music_ext_lookup ext).mp h
  · rintro ⟨pre, ext, h1, h2, h3⟩
    rw [h1, is_music_ext_split pre ext h2]
    exact (music_ext_lookup ext).mpr h3
  · have : s ++ ".MP3".toList = s ++ '.' :: "MP3".toList := rfl
    rw [this, is_music_ext_split s "MP3".toList (by decide)]
    decide

/-- The names `song.mp3` (playable), `README` (no dot) and `song.MP3`. -/
theorem C11_is_music_ext_witness :
    is_music_ext "song.mp3".toList = true ∧ is_music_ext "README".toList = false ∧
      is_music_ext "song.MP3".toList = false :=
  ⟨(C11_is_music_ext "song.mp3".toList).1.mpr
      ⟨"song".toList, "mp3".toList, rfl, by decide, Or.inl rfl⟩,
    (C11_is_music_ext "README".toList).2.1 (by decide),
    (C11_is_music_ext "song".toList).2.2⟩

/-- C12, the code at failing inputs: `alphabetical` runs its two `..` tests
again on the tails it recurses into.  For the entries `a..z` and `a.-`, neither
the parent entry, the tails after the common `a` are `..z` and `.-`, and the
comparator returns -1 although case-insensitive lexicographic order puts `a.-`
first (`-` is below `.`); and `a..b` compared with itself gives -1, not 0. -/
theorem C12_alphabetical_dotdot_inside :
    (is_parent_entry "a..z".toList = false ∧ is_parent_entry "a.-".toList = false) ∧
    alphabetical "a..z".toList "a.-".toList = -1 ∧
    collation_spec "a..z".toList "a.-".toList = 1 ∧
    alphabetical "a..b".toList "a..b".toList = -1 ∧
    collation_spec "a..b".toList "a..b".toList = 0 := by
  decide

/-- C13 (as amended): in every state reached from `cur = 0`, `scroll = 0` by
move/jump keys, each followed by `HANDLE_SCROLL`, with `n_elems > 0` and
`y1 < y2`, the scroll offset is an offset that shows the cursor row, between
the smallest such offset `max(0, cur - (y2 - y1) + 1)` and `cur`; and a further
key changes it by the minimal amount: the new offset is the old one clamped to
the offsets that show the new cursor row, so it lies between the old offset
and every offset `s` that shows the new cursor row. -/
theorem C13_scroll_minimal_change (T : gui_list) (keys : List MoveKey) (key : MoveKey)
    (hn : 0 < T.n_elems) (hy : T.y1 < T.y2) (hc : T.cur = 0) (hs : T.scroll = 0) :
    (max 0 ((move_run T keys).cur - (T.y2 - T.y1) + 1) ≤ (move_run T keys).scroll ∧
      (move_run T keys).scroll ≤ (move_run T keys).cur) ∧
    (move_step (move_run T keys) key).scroll =
      min (max (move_run T keys).scroll
          ((move_step (move_run T keys) key).cur - (T.y2 - T.y1) + 1))
        (move_step (move_run T keys) key).cur ∧
    ∀ s : Int, s ≤ (move_step (move_run T keys) key).cur →
      T.y1 + (move_step (move_run T keys) key).cur - s < T.y2 →
      ((move_run T keys).scroll ≤ s →
        (move_run T keys).scroll ≤ (move_step (move_run T keys) key).scroll ∧
          (move_step (move_run T keys) key).scroll ≤ s) ∧
      (s ≤ (move_run T keys).scroll →
        s ≤ (move_step (move_run T keys) key).scroll ∧
          (move_step (move_run T keys) key).scroll ≤ (move_run T keys).scroll) := by
  have hinv : list_inv T := by
    simp only [list_inv, hc, hs]; omega
  obtain ⟨⟨h1, h2, h3, h4⟩, e1, e2, e3⟩ := move_run_inv keys T hn hy hinv
  have h0 := move_run_scroll_nonneg keys T hn hy hinv (by omega)
  have hsc := move_step_scroll (move_run T keys) key
  have hstep := move_step_inv (move_run T keys) key (by omega) (by omega) ⟨h1, h2⟩
  rw [e2, e3] at hsc
  refine ⟨⟨by omega, h3⟩, by omega, ?_⟩
  intro s hs1 hs2
  constructor <;> intro _ <;> omega

/-- A four-item list in a two-row viewport after the keys `G`, `k`, then `j`. -/
theorem C13_scroll_minimal_change_witness :
    (max 0 ((move_run ⟨0, 0, 4, ["a".toList, "b".toList, "c".toList, "d".toList], 1, 3⟩ [MoveKey.G, MoveKey.k]).cur - (3 - 1) + 1) ≤
        (move_run ⟨0, 0, 4, ["a".toList, "b".toList, "c".toList, "d".toList], 1, 3⟩ [MoveKey.G, MoveKey.k]).scroll ∧
      (move_run ⟨0, 0, 4, ["a".toList, "b".toList, "c".toList, "d".toList], 1, 3⟩ [MoveKey.G, MoveKey.k]).scroll ≤
        (move_run ⟨0, 0, 4, ["a".toList, "b".toList, "c".toList, "d".toList], 1, 3⟩ [MoveKey.G, MoveKey.k]).cur) ∧
    (move_step (move_run ⟨0, 0, 4, ["a".toList, "b".toList, "c".toList, "d".toList], 1, 3⟩ [MoveKey.G, MoveKey.k]) MoveKey.j).scroll =
      min (max (move_run ⟨0, 0, 4, ["a".toList, "b".toList, "c".toList, "d".toList], 1, 3⟩ [MoveKey.G, MoveKey.k]).scroll
          ((move_step (move_run ⟨0, 0, 4, ["a".toList, "b".toList, "c".toList, "d".toList], 1, 3⟩ [MoveKey.G, MoveKey.k]) MoveKey.j).cur
            - (3 - 1) + 1))
        (move_step (move_run ⟨0, 0, 4, ["a".toList, "b".toList, "c".toList, "d".toList], 1, 3⟩ [MoveKey.G, MoveKey.k]) MoveKey.j).cur :=
  ⟨(C13_scroll_minimal_change ⟨0, 0, 4, ["a".toList, "b".toList, "c".toList, "d".toList], 1, 3⟩ [MoveKey.G, MoveKey.k] MoveKey.j
      (by decide) (by decide) rfl rfl).1,
    (C13_scroll_minimal_change ⟨0, 0, 4, ["a".toList, "b".toList, "c".toList, "d".toList], 1, 3⟩ [MoveKey.G, MoveKey.k] MoveKey.j
      (by decide) (by decide) rfl rfl).2.1⟩

/-- C13 as stated fails: four items, a two-row viewport (`y1 = 1`, `y2 = 3`),
keys `G` then `k`.  `G` scrolls to offset 2; after `k` the cursor is on item 2
and is still visible, so the offset stays 2, although offset 1 also shows the
cursor row and `max(0, cur - (y2 - y1) + 1)` is 1. -/
theorem C13_scroll_not_minimal_counterexample :
    (move_run ⟨0, 0, 4, ["a".toList, "b".toList, "c".toList, "d".toList], 1, 3⟩ [MoveKey.G, MoveKey.k]).cur = 2 ∧
    (move_run ⟨0, 0, 4, ["a".toList, "b".toList, "c".toList, "d".toList], 1, 3⟩ [MoveKey.G, MoveKey.k]).scroll = 2 ∧
    ((1 : Int) ≤ 2 ∧ (1 : Int) + 2 - 1 < 3) ∧
    (move_run ⟨0, 0, 4, ["a".toList, "b".toList, "c".toList, "d".toList], 1, 3⟩ [MoveKey.G, MoveKey.k]).scroll ≠
      max 0 ((move_run ⟨0, 0, 4, ["a".toList, "b".toList, "c".toList, "d".toList], 1, 3⟩ [MoveKey.G, MoveKey.k]).cur - (3 - 1) + 1) := by
  have hcur : (move_run ⟨0, 0, 4, ["a".toList, "b".toList, "c".toList, "d".toList], 1, 3⟩ [MoveKey.G, MoveKey.k]).cur = 2 := by
    simp [move_run, move_step, HANDLE_SCROLL, BASIC_MOVEMENT]
  have hscroll : (move_run ⟨0, 0, 4, ["a".toList, "b".toList, "c".toList, "d".toList], 1, 3⟩ [MoveKey.G, MoveKey.k]).scroll = 2 := by
    simp [move_run, move_step, HANDLE_SCROLL, BASIC_MOVEMENT, scroll_up_spec, scroll_down_spec]
  refine ⟨hcur, hscroll, by decide, ?_⟩
  rw [hcur, hscroll]
  decide

end Mpvq
